import Mathlib

/-!
Verification of the agenesis persistent memory core
(`agenesis/memory/persistent.py`, `agenesis/providers/embedding.py`).

Numbers: the Python code computes with floats; we idealize float arithmetic
as exact arithmetic.  Vector components are rationals.  A similarity score
produced by the code always has the shape `d / sqrt M` with `d, M` rational
and `M > 0` (`d` a dot product, `M` a product of squared magnitudes, or the
literal score `t` encoded as `t / sqrt 1`), so scores are represented by the
pair `(d, M)` and compared by the decidable comparator `sqrtLe`, which is
proved correct against the real value `d / Real.sqrt M`.
-/

namespace Agenesis

/-- A vector of (idealized) floats, as in the Python lists of floats. -/
abbrev Vec := List ℚ

/-- `sum(a * b for a, b in zip(embedding1, embedding2))`. -/
def dotList (a b : Vec) : ℚ := ((a.zip b).map (fun p => p.1 * p.2)).sum

/-- Squared magnitude `sum(a * a for a in v)`; the code's `magnitude` is its
square root, which is zero exactly when `magSq` is zero. -/
def magSq (a : Vec) : ℚ := (a.map (fun x => x * x)).sum

/-- A similarity score, representing the real number `num / sqrt den`.
All scores built by the embedded code have `den > 0`. -/
structure Score where
  num : ℚ
  den : ℚ
deriving DecidableEq, Repr

/-- Decides `p * sqrt x ≤ q * sqrt y` for rationals with `x, y > 0`,
by sign analysis and squaring. -/
def sqrtLe (p x q y : ℚ) : Bool :=
  if 0 ≤ p then
    if 0 ≤ q then decide (p ^ 2 * x ≤ q ^ 2 * y) else false
  else
    if 0 ≤ q then true else decide (q ^ 2 * y ≤ p ^ 2 * x)

/-- Score comparison: `s ≤ t` as real numbers, i.e.
`s.num / sqrt s.den ≤ t.num / sqrt t.den`, decided exactly. -/
def Score.leB (s t : Score) : Bool := sqrtLe s.num t.den t.num s.den

theorem magSq_nonneg (a : Vec) : 0 ≤ magSq a := by
  unfold magSq
  induction a with
  | nil => simp
  | cons x l ih =>
      simp only [List.map_cons, List.sum_cons]
      exact add_nonneg (mul_self_nonneg x) ih

theorem magSq_nil : magSq [] = 0 := rfl

/-- Squaring characterization of `≤` between products with square roots
(nonnegative factors). -/
theorem mul_sqrt_le_mul_sqrt_iff (p q x y : ℝ) (hp : 0 ≤ p) (hq : 0 ≤ q)
    (hx : 0 ≤ x) (hy : 0 ≤ y) :
    p * Real.sqrt x ≤ q * Real.sqrt y ↔ p ^ 2 * x ≤ q ^ 2 * y := by
  have h1 : 0 ≤ p * Real.sqrt x := mul_nonneg hp (Real.sqrt_nonneg x)
  have h2 : 0 ≤ q * Real.sqrt y := mul_nonneg hq (Real.sqrt_nonneg y)
  have e1 : (p * Real.sqrt x) ^ 2 = p ^ 2 * x := by
    rw [mul_pow, Real.sq_sqrt hx]
  have e2 : (q * Real.sqrt y) ^ 2 = q ^ 2 * y := by
    rw [mul_pow, Real.sq_sqrt hy]
  constructor
  · intro h
    rw [← e1, ← e2]
    exact pow_le_pow_left₀ h1 h 2
  · intro h
    have hsq : (p * Real.sqrt x) ^ 2 ≤ (q * Real.sqrt y) ^ 2 := by
      rw [e1, e2]; exact h
    exact le_of_pow_le_pow_left₀ two_ne_zero h2 hsq

/-- Correctness of the exact comparator against real semantics. -/
theorem sqrtLe_iff (p x q y : ℚ) (hx : 0 < x) (hy : 0 < y) :
    sqrtLe p x q y = true ↔
      (p : ℝ) * Real.sqrt (x : ℝ) ≤ (q : ℝ) * Real.sqrt (y : ℝ) := by
  have hx' : (0:ℝ) ≤ (x:ℝ) := by exact_mod_cast hx.le
  have hy' : (0:ℝ) ≤ (y:ℝ) := by exact_mod_cast hy.le
  have hxpos : (0:ℝ) < (x:ℝ) := by exact_mod_cast hx
  have hypos : (0:ℝ) < (y:ℝ) := by exact_mod_cast hy
  unfold sqrtLe
  by_cases hp : 0 ≤ p
  · by_cases hq : 0 ≤ q
    · simp only [hp, hq, if_true, decide_eq_true_eq]
      have hp' : (0:ℝ) ≤ (p:ℝ) := by exact_mod_cast hp
      have hq' : (0:ℝ) ≤ (q:ℝ) := by exact_mod_cast hq
      rw [mul_sqrt_le_mul_sqrt_iff _ _ _ _ hp' hq' hx' hy']
      constructor
      · intro h; exact_mod_cast h
      · intro h; exact_mod_cast h
    · simp only [hp, hq, if_true, if_false]
      have hq' : (q:ℝ) < 0 := by exact_mod_cast lt_of_not_le hq
      have hp' : (0:ℝ) ≤ (p:ℝ) := by exact_mod_cast hp
      constructor
      · intro h; exact absurd h (by simp)
      · intro h
        exfalso
        have h1 : (q:ℝ) * Real.sqrt (y:ℝ) < 0 :=
          mul_neg_of_neg_of_pos hq' (Real.sqrt_pos.mpr hypos)
        have h2 : (0:ℝ) ≤ (p:ℝ) * Real.sqrt (x:ℝ) :=
          mul_nonneg hp' (Real.sqrt_nonneg _)
        linarith
  · by_cases hq : 0 ≤ q
    · simp only [hp, hq, if_true, if_false]
      have hp' : (p:ℝ) < 0 := by exact_mod_cast lt_of_not_le hp
      have hq' : (0:ℝ) ≤ (q:ℝ) := by exact_mod_cast hq
      constructor
      · intro _
        have h1 : (p:ℝ) * Real.sqrt (x:ℝ) < 0 :=
          mul_neg_of_neg_of_pos hp' (Real.sqrt_pos.mpr hxpos)
        have h2 : (0:ℝ) ≤ (q:ℝ) * Real.sqrt (y:ℝ) :=
          mul_nonneg hq' (Real.sqrt_nonneg _)
        linarith
      · intro _; trivial
    · simp only [hp, hq, if_false, decide_eq_true_eq]
      have hp' : (p:ℝ) < 0 := by exact_mod_cast lt_of_not_le hp
      have hq' : (q:ℝ) < 0 := by exact_mod_cast lt_of_not_le hq
      have key : (p:ℝ) * Real.sqrt (x:ℝ) ≤ (q:ℝ) * Real.sqrt (y:ℝ) ↔
          (-(q:ℝ)) * Real.sqrt (y:ℝ) ≤ (-(p:ℝ)) * Real.sqrt (x:ℝ) := by
        constructor <;> intro h <;> nlinarith [Real.sqrt_nonneg (x:ℝ),
          Real.sqrt_nonneg (y:ℝ)]
      rw [key, mul_sqrt_le_mul_sqrt_iff _ _ _ _ (by linarith) (by linarith) hy' hx']
      constructor
      · intro h
        have h' : q ^ 2 * y ≤ p ^ 2 * x := h
        have : ((q:ℝ)) ^ 2 * (y:ℝ) ≤ ((p:ℝ)) ^ 2 * (x:ℝ) := by exact_mod_cast h'
        nlinarith
      · intro h
        have : ((q:ℝ)) ^ 2 * (y:ℝ) ≤ ((p:ℝ)) ^ 2 * (x:ℝ) := by nlinarith
        exact_mod_cast this

/-- The comparator is total (any two scores compare one way or the other). -/
theorem Score.leB_total (s t : Score) : s.leB t = true ∨ t.leB s = true := by
  unfold Score.leB sqrtLe
  by_cases h1 : 0 ≤ s.num <;> by_cases h2 : 0 ≤ t.num <;>
    simp [h1, h2, le_total]

/-- Real semantics of score comparison: for scores with positive
denominator part, `leB` decides `≤` of the real values `num / sqrt den`. -/
theorem Score.leB_iff (s t : Score) (hs : 0 < s.den) (ht : 0 < t.den) :
    s.leB t = true ↔
      (s.num : ℝ) / Real.sqrt (s.den : ℝ) ≤ (t.num : ℝ) / Real.sqrt (t.den : ℝ) := by
  have h1 : (0:ℝ) < Real.sqrt (s.den : ℝ) :=
    Real.sqrt_pos.mpr (by exact_mod_cast hs)
  have h2 : (0:ℝ) < Real.sqrt (t.den : ℝ) :=
    Real.sqrt_pos.mpr (by exact_mod_cast ht)
  rw [Score.leB, sqrtLe_iff _ _ _ _ ht hs, div_le_div_iff₀ h1 h2]

/-- `leB` is transitive on scores with positive denominator part. -/
theorem Score.leB_trans {s t u : Score} (hs : 0 < s.den) (ht : 0 < t.den)
    (hu : 0 < u.den) (h1 : s.leB t = true) (h2 : t.leB u = true) :
    s.leB u = true := by
  rw [Score.leB_iff _ _ hs ht] at h1
  rw [Score.leB_iff _ _ ht hu] at h2
  rw [Score.leB_iff _ _ hs hu]
  exact le_trans h1 h2

/-! ### Stable descending sort

Python's `list.sort(key=..., reverse=True)` is a stable descending sort.
We model it (and the numpy argsort-and-reverse selection of the cache
path) as stable insertion sort with a boolean ranking test `ge a b`,
meaning "`a` ranks at or above `b`": the element being inserted goes in
front of the first element it ranks at or above, so ties keep their
original (insertion) order. -/

/-- Insertion step of the stable descending sort. -/
def insertRanked {α : Type} (ge : α → α → Bool) (a : α) : List α → List α
  | [] => [a]
  | b :: l => if ge a b then a :: b :: l else b :: insertRanked ge a l

/-- Stable descending insertion sort. -/
def sortRanked {α : Type} (ge : α → α → Bool) : List α → List α
  | [] => []
  | a :: l => insertRanked ge a (sortRanked ge l)

theorem insertRanked_perm {α : Type} (ge : α → α → Bool) (a : α) (l : List α) :
    List.Perm (insertRanked ge a l) (a :: l) := by
  induction l with
  | nil => rfl
  | cons b l ih =>
      rw [insertRanked]
      by_cases h : ge a b
      · simp [h]
      · simp only [h, if_false]
        exact ((ih.cons b).trans (List.Perm.swap a b l))

theorem sortRanked_perm {α : Type} (ge : α → α → Bool) (l : List α) :
    List.Perm (sortRanked ge l) l := by
  induction l with
  | nil => rfl
  | cons a l ih =>
      rw [sortRanked]
      exact (insertRanked_perm ge a (sortRanked ge l)).trans (ih.cons a)

theorem mem_insertRanked {α : Type} {ge : α → α → Bool} {a x : α} {l : List α} :
    x ∈ insertRanked ge a l ↔ x = a ∨ x ∈ l := by
  rw [(insertRanked_perm ge a l).mem_iff, List.mem_cons]

theorem insertRanked_pairwise {α : Type} (ge : α → α → Bool) (a : α) :
    ∀ l : List α, l.Pairwise (fun x y => ge x y = true) →
      (∀ b ∈ l, ge a b = true ∨ ge b a = true) →
      (∀ b ∈ l, ∀ c ∈ l, ge a b = true → ge b c = true → ge a c = true) →
      (insertRanked ge a l).Pairwise (fun x y => ge x y = true)
  | [], _, _, _ => List.pairwise_singleton _ a
  | b :: l, hpw, htot, htrans => by
      rw [insertRanked]
      rcases List.pairwise_cons.mp hpw with ⟨hb, hl⟩
      by_cases h : ge a b
      · simp only [h, if_true]
        refine List.pairwise_cons.mpr ⟨?_, hpw⟩
        intro x hx
        rcases List.mem_cons.mp hx with rfl | hx
        · exact h
        · exact htrans b (List.mem_cons_self b l) x (List.mem_cons_of_mem b hx)
            h (hb x hx)
      · simp only [h, if_false]
        refine List.pairwise_cons.mpr ⟨?_, ?_⟩
        · intro x hx
          rcases mem_insertRanked.mp hx with rfl | hx
          · rcases htot b (List.mem_cons_self b l) with h' | h'
            · exact absurd h' h
            · exact h'
          · exact hb x hx
        · exact insertRanked_pairwise ge a l hl
            (fun c hc => htot c (List.mem_cons_of_mem b hc))
            (fun c hc d hd => htrans c (List.mem_cons_of_mem b hc) d
              (List.mem_cons_of_mem b hd))

theorem sortRanked_pairwise {α : Type} (ge : α → α → Bool) (l : List α)
    (htot : ∀ a ∈ l, ∀ b ∈ l, ge a b = true ∨ ge b a = true)
    (htrans : ∀ a ∈ l, ∀ b ∈ l, ∀ c ∈ l,
      ge a b = true → ge b c = true → ge a c = true) :
    (sortRanked ge l).Pairwise (fun x y => ge x y = true) := by
  induction l with
  | nil => exact List.Pairwise.nil
  | cons a l ih =>
      rw [sortRanked]
      have hmem : ∀ x ∈ sortRanked ge l, x ∈ l :=
        fun x hx => (sortRanked_perm ge l).mem_iff.mp hx
      exact insertRanked_pairwise ge a (sortRanked ge l)
        (ih (fun x hx y hy => htot x (List.mem_cons_of_mem a hx) y
              (List.mem_cons_of_mem a hy))
            (fun x hx y hy z hz => htrans x (List.mem_cons_of_mem a hx) y
              (List.mem_cons_of_mem a hy) z (List.mem_cons_of_mem a hz)))
        (fun b hb => htot a (List.mem_cons_self a l) b
          (List.mem_cons_of_mem a (hmem b hb)))
        (fun b hb c hc => htrans a (List.mem_cons_self a l) b
          (List.mem_cons_of_mem a (hmem b hb)) c
          (List.mem_cons_of_mem a (hmem c hc)))

/-- Inserting an element that ranks below everything appends it. -/
theorem insertRanked_append {α : Type} (ge : α → α → Bool) (a : α)
    (l : List α) (h : ∀ b ∈ l, ge a b = false) :
    insertRanked ge a l = l ++ [a] := by
  induction l with
  | nil => rfl
  | cons b l ih =>
      rw [insertRanked, h b (List.mem_cons_self b l)]
      simp only [Bool.false_eq_true, if_false, List.cons_append, List.cons.injEq,
        true_and]
      exact ih (fun c hc => h c (List.mem_cons_of_mem b hc))

/-- Mapping that preserves the ranking test commutes with the sort
(used to carry indices to row identifiers through the pipelines). -/
theorem insertRanked_map {α β : Type} (f : α → β) (geA : α → α → Bool)
    (geB : β → β → Bool) (hf : ∀ x y, geB (f x) (f y) = geA x y) (a : α)
    (l : List α) :
    insertRanked geB (f a) (l.map f) = (insertRanked geA a l).map f := by
  induction l with
  | nil => rfl
  | cons b l ih =>
      simp only [List.map_cons, insertRanked, hf a b]
      by_cases h : geA a b
      · simp [h]
      · simp [h, ih]

theorem sortRanked_map {α β : Type} (f : α → β) (geA : α → α → Bool)
    (geB : β → β → Bool) (hf : ∀ x y, geB (f x) (f y) = geA x y)
    (l : List α) :
    sortRanked geB (l.map f) = (sortRanked geA l).map f := by
  induction l with
  | nil => rfl
  | cons a l ih =>
      simp only [List.map_cons, sortRanked, ih]
      exact insertRanked_map f geA geB hf a (sortRanked geA l)

/-! ### `EmbeddingUtils` (providers/embedding.py) -/

/-- `EmbeddingUtils.cosine_similarity`: returns score 0 on empty input,
length mismatch, or a zero-magnitude vector; otherwise the dot product
over the product of magnitudes, represented as
`(dot, magSq e1 * magSq e2)` for the real value
`dot / sqrt (magSq e1 * magSq e2)`. -/
def cosine_similarity (e1 e2 : Vec) : Score :=
  if e1 = [] ∨ e2 = [] ∨ e1.length ≠ e2.length then ⟨0, 1⟩
  else if magSq e1 = 0 ∨ magSq e2 = 0 then ⟨0, 1⟩
  else ⟨dotList e1 e2, magSq e1 * magSq e2⟩

/-- Ranking test for (tag, score) pairs: compares scores only. -/
def scoreGe {γ : Type} (a b : γ × Score) : Bool := Score.leB b.2 a.2

/-- `EmbeddingUtils.find_most_similar`: score every candidate against the
query, keep those with score at least `min_sim`, sort descending by
score (stable), truncate to `top_k`.  Empty query or candidate list
short-circuits to `[]`. -/
def find_most_similar (query : Vec) (cands : List Vec) (top_k : ℕ)
    (min_sim : ℚ) : List (ℕ × Score) :=
  if query = [] ∨ cands = [] then []
  else
    ((sortRanked scoreGe
      ((cands.enum.map (fun ic => (ic.1, cosine_similarity query ic.2))).filter
        (fun p => Score.leB ⟨min_sim, 1⟩ p.2))).take top_k)

theorem cosine_similarity_den_pos (e1 e2 : Vec) :
    0 < (cosine_similarity e1 e2).den := by
  rw [cosine_similarity]
  by_cases h1 : e1 = [] ∨ e2 = [] ∨ e1.length ≠ e2.length
  · simp [h1]
  · simp only [h1, if_false]
    by_cases h2 : magSq e1 = 0 ∨ magSq e2 = 0
    · simp [h2]
    · push_neg at h2
      simp only [h2, if_false]
      exact mul_pos (lt_of_le_of_ne (magSq_nonneg e1) (Ne.symm h2.1))
        (lt_of_le_of_ne (magSq_nonneg e2) (Ne.symm h2.2))

/-! ### `SQLiteMemory` (memory/persistent.py)

A table row is a `MemoryRecord`; the implicit SQLite rowid of `rows[i]`
is `i + 1` (rowids are assigned in insertion order and rows are never
deleted).  Timestamps are modelled as naturals: ISO-8601 UTC strings
compare lexicographically exactly as the instants they denote.  The
opaque serialized payloads (`context`, `metadata`, ...) are strings. -/

structure MemoryRecord where
  id : String
  content : String
  stored_at : ℕ
  context : String
  metadata : String
  is_evolved_knowledge : Bool
  evolution_metadata : Option String
  reliability_multiplier : ℚ
  embedding : Option Vec
  agent_response : Option String
deriving DecidableEq, Repr

/-- The store state: the `memory_records` table (in rowid order), the
`vss_memory_embeddings` mirror (rowids present in it), the two
configuration flags, and the in-process embedding cache
(`_embedding_cache` zipped with `_rowid_cache`; `_cache_record_count`
always equals its length, 0 when absent). -/
structure SQLiteMemory where
  rows : List MemoryRecord
  vssRows : List ℕ
  vector_search_enabled : Bool
  enable_index_caching : Bool
  cache : Option (List (ℕ × Vec))
deriving DecidableEq, Repr

/-- `SELECT COUNT(*) FROM memory_records WHERE embedding IS NOT NULL`. -/
def embCount (rows : List MemoryRecord) : ℕ :=
  (rows.filter (fun r => r.embedding.isSome)).length

/-- `SELECT rowid, embedding FROM memory_records WHERE embedding IS NOT
NULL ORDER BY rowid`. -/
def embRows (rows : List MemoryRecord) : List (ℕ × Vec) :=
  rows.enum.filterMap (fun p => p.2.embedding.map (fun v => (p.1 + 1, v)))

/-- `json.dumps(record.embedding) if record.embedding else None`: Python
truthiness stores an empty-list embedding as NULL. -/
def storedEmbedding (e : Option Vec) : Option Vec :=
  match e with
  | some [] => none
  | e => e

/-- `_store_record_to_db`: append the row; if vector search is enabled
and the stored embedding is non-NULL, the insert trigger mirrors the new
rowid into the vss table.  (`_invalidate_cache` is a no-op.) -/
def storeRecord (s : SQLiteMemory) (r : MemoryRecord) : SQLiteMemory :=
  let row := { r with embedding := storedEmbedding r.embedding }
  let rows := s.rows ++ [row]
  { s with
    rows := rows
    vssRows := if s.vector_search_enabled && row.embedding.isSome
               then s.vssRows ++ [rows.length] else s.vssRows }

/-- Number of rows matched by `WHERE id = ?`. -/
def matchCount (rows : List MemoryRecord) (mid : String) : ℕ :=
  (rows.filter (fun r => r.id = mid)).length

/-- `UPDATE memory_records SET embedding = ? WHERE id = ?` on the table
itself (note: `update_embedding` serializes with a plain `json.dumps`,
so even an empty list is stored non-NULL). -/
def setEmbedding (rows : List MemoryRecord) (mid : String) (v : Vec) :
    List MemoryRecord :=
  rows.map (fun r => if r.id = mid then { r with embedding := some v } else r)

/-- `update_embedding`.  Its connection never calls `sqlite_vss.load`
(unlike `_store_record_to_db`).  On a vector-search-enabled store the
`AFTER UPDATE OF embedding` trigger referencing the `vss0` virtual
table exists, so compiling the UPDATE raises ("no such module: vss0"),
the `except` path returns `False`, and nothing is mutated.  On a
disabled store no trigger exists; the UPDATE runs unconditionally on
the matched row and the call returns `cursor.rowcount > 0`. -/
def update_embedding (s : SQLiteMemory) (mid : String) (v : Vec) :
    SQLiteMemory × Bool :=
  if s.vector_search_enabled then (s, false)
  else
    ({ s with rows := setEmbedding s.rows mid v },
     decide (0 < matchCount s.rows mid))

/-- The `executemany` fold over the pairs, each UPDATE adding its
matched rowcount, as it runs when the statements compile. -/
def batchFold (s : SQLiteMemory) (pairs : List (String × Vec)) :
    SQLiteMemory × ℕ :=
  pairs.foldl (fun acc p =>
    ((update_embedding acc.1 p.1 p.2).1, acc.2 + matchCount acc.1.rows p.1))
    (s, 0)

/-- `batch_update_embeddings`: empty input returns 0 at once.  The
connection never calls `sqlite_vss.load`, so on a vector-search-enabled
store the `executemany` fails compiling the `vss0`-referencing
embedding-update trigger, the transaction rolls back, and the `except`
path returns 0 with no mutation.  On a disabled store the UPDATEs run
and `cursor.rowcount` sums the rows matched by each execution. -/
def batch_update_embeddings (s : SQLiteMemory) (pairs : List (String × Vec)) :
    SQLiteMemory × ℕ :=
  if pairs = [] then (s, 0)
  else if s.vector_search_enabled then (s, 0)
  else batchFold s pairs

structure EmbeddingStats where
  total_records : ℕ
  records_with_embeddings : ℕ
  records_without_embeddings : ℕ
  embedding_coverage : ℚ
deriving DecidableEq, Repr

/-- `get_embedding_statistics`. -/
def get_embedding_statistics (s : SQLiteMemory) : EmbeddingStats :=
  let total := s.rows.length
  let withE := embCount s.rows
  { total_records := total
    records_with_embeddings := withE
    records_without_embeddings := total - withE
    embedding_coverage := if 0 < total then (withE : ℚ) / total * 100 else 0 }

/-- Ranking test of `ORDER BY stored_at DESC`. -/
def recentGe (a b : MemoryRecord) : Bool := decide (b.stored_at ≤ a.stored_at)

/-- `get_recent`: `SELECT * ORDER BY stored_at DESC LIMIT ?`.  Rows with
equal `stored_at` are returned in ascending rowid order (the
`idx_stored_at` index scan), i.e. a stable descending sort of the
rowid-ordered table. -/
def get_recent (s : SQLiteMemory) (count : ℕ) : List MemoryRecord :=
  (sortRanked recentGe s.rows).take count

/-- Embedded rowids absent from the vss mirror (the LEFT JOIN ... IS
NULL scan of `migrate_existing_embeddings`). -/
def missingRowids (s : SQLiteMemory) : List ℕ :=
  (embRows s.rows).filterMap
    (fun p => if p.1 ∈ s.vssRows then none else some p.1)

/-- `migrate_existing_embeddings`: skipped (returns 0) when vector
search is disabled; otherwise inserts every missing embedded rowid into
the mirror and returns how many were inserted. -/
def migrate_existing_embeddings (s : SQLiteMemory) : SQLiteMemory × ℕ :=
  if s.vector_search_enabled then
    ({ s with vssRows := s.vssRows ++ missingRowids s },
     (missingRowids s).length)
  else (s, 0)

/-- `_cache_record_count` (equals the cache length, 0 when absent). -/
def cacheCount (s : SQLiteMemory) : ℕ := (s.cache.getD []).length

/-- `_needs_cache_rebuild`: never built, or the embedded-row count grew. -/
def needs_cache_rebuild (s : SQLiteMemory) : Bool :=
  if !s.enable_index_caching then false
  else if s.cache.isNone then true
  else decide (cacheCount s < embCount s.rows)

/-- `_rebuild_embedding_cache`: full scan of embedded rows in rowid
order; an empty scan leaves the cache absent. -/
def rebuildCache (s : SQLiteMemory) : SQLiteMemory :=
  if !s.enable_index_caching then s
  else if embRows s.rows = [] then { s with cache := none }
  else { s with cache := some (embRows s.rows) }

/-- Ascending ranking test (the ascending argsort order): compares
scores only. -/
def scoreLe {γ : Type} (a b : γ × Score) : Bool := Score.leB a.2 b.2

/-- The numpy scoring-and-selection core of `_cached_similarity_search`:
cosine similarities of the query against every cached vector as
normalized dot products (a zero-magnitude query or row vector
normalizes to NaN, fails the `>=` comparison, and is dropped), threshold
filter, then top-`limit` selection via `np.argsort(...)[::-1]` — the
reverse of an ascending sort, so tied scores come out in *descending*
original (rowid) order, unlike the stable descending sort of
`find_most_similar`.  When the candidate count exceeds `limit` the
source preselects with `np.argpartition`, whose choice among equal
scores at the selection boundary is arbitrary, and then orders the
selected subset the same reversed-argsort way; with pairwise-distinct
scores (the only case our theorems quantify over) both branches equal
this definition.  The score of row `v` is
`dot q v / sqrt (magSq q * magSq v)`, the value of the normalized dot
product. -/
def cachedSearchCore (data : List (ℕ × Vec)) (q : Vec) (limit : ℕ)
    (minSim : ℚ) : List (ℕ × Score) :=
  ((sortRanked scoreLe (data.filterMap (fun rv =>
    if magSq q = 0 ∨ magSq rv.2 = 0 then none
    else
      let sc : Score := ⟨dotList q rv.2, magSq q * magSq rv.2⟩
      if Score.leB ⟨minSim, 1⟩ sc then some (rv.1, sc) else none))).reverse).take
    limit

/-- The batched `WHERE rowid IN (...)` fetch re-pairing scored rowids
with their records (rowids absent from the table are skipped). -/
def fetchRecords (rows : List MemoryRecord) (scored : List (ℕ × Score)) :
    List (MemoryRecord × Score) :=
  scored.filterMap (fun p => (rows[p.1 - 1]?).map (fun r => (r, p.2)))

/-- `_cached_similarity_search`: rebuild the cache if stale, empty cache
yields an empty result, otherwise score the cached vectors and fetch the
selected records. -/
def cached_similarity_search (s : SQLiteMemory) (q : Vec) (limit : ℕ)
    (minSim : ℚ) : SQLiteMemory × List (MemoryRecord × Score) :=
  let s1 := if needs_cache_rebuild s then rebuildCache s else s
  match s1.cache with
  | none => (s1, [])
  | some data => (s1, fetchRecords s1.rows (cachedSearchCore data q limit minSim))

/-- The cache search evaluated on a fully fresh cache: scores computed
directly over the embedded rows of the current table. -/
def freshSearch (rows : List MemoryRecord) (q : Vec) (limit : ℕ)
    (minSim : ℚ) : List (MemoryRecord × Score) :=
  fetchRecords rows (cachedSearchCore (embRows rows) q limit minSim)

/-- `vector_similarity_search`.  Runtime failures of the accelerated
strategies are injected as oracles: `cachedFails` models an exception
inside `_cached_similarity_search`; `vssOutcome = none` models a failing
sqlite-vss query, `some res` a successful one (the native index's
answer is an oracle because the vss0 index itself is outside the model).
Control flow of the source: disabled → recency with score 0.0; caching
enabled and not failing → cached search; otherwise the vss query;
failing that → recency with score 0.0. -/
def vector_similarity_search (s : SQLiteMemory) (cachedFails : Bool)
    (vssOutcome : Option (List (MemoryRecord × Score))) (q : Vec)
    (limit : ℕ) (minSim : ℚ) : SQLiteMemory × List (MemoryRecord × Score) :=
  if !s.vector_search_enabled then
    (s, (get_recent s limit).map (fun r => (r, ⟨0, 1⟩)))
  else if s.enable_index_caching && !cachedFails then
    cached_similarity_search s q limit minSim
  else
    match vssOutcome with
    | some res => (s, res)
    | none => (s, (get_recent s limit).map (fun r => (r, ⟨0, 1⟩)))

/-! ### Concrete records and states used by witnesses and counterexamples -/

/-- Record without embedding, `stored_at` tick 1. -/
def recA : MemoryRecord := ⟨"a", "alpha", 1, "", "", false, none, 1, none, none⟩

/-- Record without embedding sharing `stored_at` tick 1 with `recA`
(two records created in the same timestamp-resolution tick). -/
def recB : MemoryRecord := ⟨"b", "beta", 1, "", "", false, none, 1, none, none⟩

/-- Record carrying embedding `[1]`, `stored_at` tick 2. -/
def recE : MemoryRecord :=
  ⟨"e", "embedded", 2, "", "", false, none, 1, some [1], none⟩

/-- Record without embedding, `stored_at` tick 3. -/
def recU : MemoryRecord := ⟨"u", "plain", 3, "", "", false, none, 1, none, none⟩

/-- Two same-tick rows, vector search disabled. -/
def tieState : SQLiteMemory := ⟨[recA, recB], [], false, true, none⟩

/-- Two strictly increasing ticks, vector search disabled. -/
def ascState : SQLiteMemory := ⟨[recA, recE], [], false, true, none⟩

/-- One embedded row, vector search disabled, empty vss mirror. -/
def offState : SQLiteMemory := ⟨[recE], [], false, false, none⟩

/-- One embedded row, vector search enabled, empty vss mirror. -/
def onState : SQLiteMemory := ⟨[recE], [], true, false, none⟩

/-- One embedded row, vector search and caching enabled, cache unbuilt. -/
def liveState : SQLiteMemory := ⟨[recE], [1], true, true, none⟩

/-- Embedded row plus plain row, vector search disabled. -/
def mixedState : SQLiteMemory := ⟨[recE, recU], [], false, true, none⟩

/-- Empty store with caching enabled. -/
def emptyState : SQLiteMemory := ⟨[], [], false, true, none⟩

/-! ### Shared lemmas about the pipelines -/

theorem dotList_self (v : Vec) : dotList v v = magSq v := by
  unfold dotList magSq
  induction v with
  | nil => rfl
  | cons x l ih => simpa using ih

theorem magSq_ne_zero_ne_nil {v : Vec} (h : magSq v ≠ 0) : v ≠ [] :=
  fun hv => h (hv ▸ magSq_nil)

/-- On equal-length vectors of nonzero magnitude, `cosine_similarity` is
the dot product over the product of magnitudes. -/
theorem cosine_similarity_eq (a b : Vec) (hlen : a.length = b.length)
    (ha : magSq a ≠ 0) (hb : magSq b ≠ 0) :
    cosine_similarity a b = ⟨dotList a b, magSq a * magSq b⟩ := by
  rw [cosine_similarity]
  simp [magSq_ne_zero_ne_nil ha, magSq_ne_zero_ne_nil hb, hlen, ha, hb]

/-! ## Claim C9 -/

/-- C9: `cosine_similarity(a, b)` equals the dot product of `a` and `b`
divided by the product of their magnitudes; it returns 0 (not an error)
whenever either vector has zero magnitude or the two vectors differ in
length; and for every vector of nonzero magnitude,
`cosine_similarity(v, v)` is exactly 1 in exact arithmetic. -/
theorem C9_cosine_similarity_spec :
    (∀ a b : Vec, a.length = b.length → magSq a ≠ 0 → magSq b ≠ 0 →
      ((cosine_similarity a b).num : ℝ) /
          Real.sqrt ((cosine_similarity a b).den : ℝ)
        = (dotList a b : ℝ) /
            (Real.sqrt ((magSq a : ℚ) : ℝ) * Real.sqrt ((magSq b : ℚ) : ℝ)))
    ∧ (∀ a b : Vec, a.length ≠ b.length ∨ magSq a = 0 ∨ magSq b = 0 →
        cosine_similarity a b = ⟨0, 1⟩)
    ∧ (∀ v : Vec, magSq v ≠ 0 →
        ((cosine_similarity v v).num : ℝ) /
          Real.sqrt ((cosine_similarity v v).den : ℝ) = 1) := by
  refine ⟨?_, ?_, ?_⟩
  · intro a b hlen ha hb
    rw [cosine_similarity_eq a b hlen ha hb]
    show (dotList a b : ℝ) / Real.sqrt ((magSq a * magSq b : ℚ) : ℝ) = _
    rw [Rat.cast_mul, Real.sqrt_mul (by exact_mod_cast magSq_nonneg a)]
  · intro a b h
    rw [cosine_similarity]
    by_cases hg : a = [] ∨ b = [] ∨ a.length ≠ b.length
    · simp [hg]
    · simp only [hg, if_false]
      rcases h with h | h | h
      · exact absurd (Or.inr (Or.inr h)) hg
      · simp [h]
      · simp [h]
  · intro v hv
    rw [cosine_similarity_eq v v rfl hv hv]
    show (dotList v v : ℝ) / Real.sqrt ((magSq v * magSq v : ℚ) : ℝ) = 1
    have hpos : (0:ℝ) < ((magSq v : ℚ) : ℝ) := by
      exact_mod_cast lt_of_le_of_ne (magSq_nonneg v) (Ne.symm hv)
    rw [dotList_self, Rat.cast_mul, Real.sqrt_mul_self hpos.le]
    exact div_self (ne_of_gt hpos)

/-- Witness for C9 at concrete inputs: `cosine_similarity([3,4],[3,4])`
has real value 1, and a zero-magnitude second argument yields score 0. -/
theorem C9_witness :
    ((cosine_similarity [3, 4] [3, 4]).num : ℝ) /
        Real.sqrt ((cosine_similarity [3, 4] [3, 4]).den : ℝ) = 1
    ∧ cosine_similarity [1] [0] = ⟨0, 1⟩ :=
  ⟨C9_cosine_similarity_spec.2.2 [3, 4] (by norm_num [magSq]),
   C9_cosine_similarity_spec.2.1 [1] [0]
     (Or.inr (Or.inr (by norm_num [magSq])))⟩

/-! ## Claim C8 -/

/-- Membership in the filtered scored list of `find_most_similar`. -/
theorem mem_simsList {query : Vec} {cands : List Vec} {min_sim : ℚ}
    {p : ℕ × Score} :
    p ∈ ((cands.enum.map
          (fun ic => (ic.1, cosine_similarity query ic.2))).filter
        (fun p => Score.leB ⟨min_sim, 1⟩ p.2)) ↔
      Score.leB ⟨min_sim, 1⟩ p.2 = true ∧ p.1 < cands.length
        ∧ p.2 = cosine_similarity query (cands.getD p.1 []) := by
  rw [List.mem_filter]
  constructor
  · rintro ⟨h1, h2⟩
    obtain ⟨ic, hic, rfl⟩ := List.mem_map.mp h1
    have h4 := List.mem_enum_iff_getElem?.mp hic
    have h5 : ic.1 < cands.length := (List.getElem?_eq_some_iff.mp h4).1
    refine ⟨h2, h5, ?_⟩
    have h6 : cands.getD ic.1 [] = ic.2 := by
      rw [List.getD_eq_getElem?_getD, h4, Option.getD_some]
    rw [h6]
  · rintro ⟨h1, h2, h3⟩
    refine ⟨?_, h1⟩
    refine List.mem_map.mpr ⟨(p.1, cands.getD p.1 []), ?_, ?_⟩
    · refine List.mem_enum_iff_getElem?.mpr ?_
      rw [List.getD_eq_getElem?_getD, List.getElem?_eq_getElem h2]
      rfl
    · obtain ⟨i, sc⟩ := p
      simp only at h3 ⊢
      rw [← h3]

/-- C8 (amended): `find_most_similar` returns at most `top_k` pairs,
sorted non-increasing by real score value, each with score at least
`min_similarity` and equal to the cosine similarity of the query with
the indexed candidate; and — provided the query is nonempty — whenever
the result is shorter than `top_k` it contains every candidate index
whose score passes the threshold.  (The as-stated claim fails only for
the empty query, which short-circuits to `[]` without evaluating any
candidate; see the counterexample.) -/
theorem C8_find_most_similar_ranked (query : Vec) (cands : List Vec)
    (top_k : ℕ) (min_sim : ℚ) :
    (find_most_similar query cands top_k min_sim).length ≤ top_k
    ∧ (find_most_similar query cands top_k min_sim).Pairwise
        (fun a b => (b.2.num : ℝ) / Real.sqrt (b.2.den : ℝ)
          ≤ (a.2.num : ℝ) / Real.sqrt (a.2.den : ℝ))
    ∧ (∀ p ∈ find_most_similar query cands top_k min_sim,
        (min_sim : ℝ) ≤ (p.2.num : ℝ) / Real.sqrt (p.2.den : ℝ)
        ∧ p.1 < cands.length
        ∧ p.2 = cosine_similarity query (cands.getD p.1 []))
    ∧ (query ≠ [] →
        (find_most_similar query cands top_k min_sim).length < top_k →
        ∀ i < cands.length,
          Score.leB ⟨min_sim, 1⟩ (cosine_similarity query (cands.getD i []))
            = true →
          (i, cosine_similarity query (cands.getD i [])) ∈
            find_most_similar query cands top_k min_sim) := by
  by_cases hg : query = [] ∨ cands = []
  · refine ⟨?_, ?_, ?_, ?_⟩ <;>
      simp only [find_most_similar, hg, if_true]
    · exact Nat.zero_le _
    · exact List.Pairwise.nil
    · intro p hp; exact absurd hp (List.not_mem_nil p)
    · intro hq _ i hi _
      rcases hg with hg | hg
      · exact absurd hg hq
      · rw [hg] at hi; exact absurd hi (by simp)
  · have hmemF : ∀ p ∈ find_most_similar query cands top_k min_sim,
        Score.leB ⟨min_sim, 1⟩ p.2 = true ∧ p.1 < cands.length
          ∧ p.2 = cosine_similarity query (cands.getD p.1 []) := by
      intro p hp
      rw [find_most_similar] at hp
      simp only [hg, if_false] at hp
      exact mem_simsList.mp
        ((sortRanked_perm _ _).mem_iff.mp (List.take_subset _ _ hp))
    have hdenF : ∀ p ∈ find_most_similar query cands top_k min_sim,
        0 < p.2.den := by
      intro p hp
      rw [(hmemF p hp).2.2]
      exact cosine_similarity_den_pos _ _
    refine ⟨?_, ?_, ?_, ?_⟩
    · rw [find_most_similar]
      simp only [hg, if_false]
      exact List.length_take_le _ _
    · have hF : ∀ p ∈ ((cands.enum.map
            (fun ic => (ic.1, cosine_similarity query ic.2))).filter
          (fun p => Score.leB ⟨min_sim, 1⟩ p.2)), 0 < p.2.den := by
        intro p hp
        rw [(mem_simsList.mp hp).2.2]
        exact cosine_similarity_den_pos _ _
      have hpw := sortRanked_pairwise (scoreGe (γ := ℕ)) _
        (fun a _ b _ =>
          show Score.leB b.2 a.2 = true ∨ Score.leB a.2 b.2 = true from
            Score.leB_total b.2 a.2)
        (fun a ha b hb c hc h1 h2 =>
          show Score.leB c.2 a.2 = true from
            Score.leB_trans (hF c hc) (hF b hb) (hF a ha)
              (show Score.leB c.2 b.2 = true from h2)
              (show Score.leB b.2 a.2 = true from h1))
      have hpw2 := hpw.sublist (List.take_sublist top_k _)
      rw [find_most_similar]
      simp only [hg, if_false]
      refine hpw2.imp_of_mem ?_
      intro a b ha hb hab
      have hda : 0 < a.2.den :=
        hF a ((sortRanked_perm _ _).mem_iff.mp (List.take_subset _ _ ha))
      have hdb : 0 < b.2.den :=
        hF b ((sortRanked_perm _ _).mem_iff.mp (List.take_subset _ _ hb))
      exact (Score.leB_iff b.2 a.2 hdb hda).mp hab
    · intro p hp
      refine ⟨?_, (hmemF p hp).2.1, (hmemF p hp).2.2⟩
      have h1 := (Score.leB_iff ⟨min_sim, 1⟩ p.2 one_pos (hdenF p hp)).mp
        (hmemF p hp).1
      simpa [Real.sqrt_one] using h1
    · intro hq hlen i hi hthr
      rw [find_most_similar] at hlen ⊢
      simp only [hg, if_false] at hlen ⊢
      have hlen2 : (sortRanked (scoreGe (γ := ℕ))
          ((cands.enum.map
            (fun ic => (ic.1, cosine_similarity query ic.2))).filter
          (fun p => Score.leB ⟨min_sim, 1⟩ p.2))).length ≤ top_k := by
        by_contra hcon
        push_neg at hcon
        rw [List.length_take, Nat.min_eq_left hcon.le] at hlen
        exact lt_irrefl _ hlen
      rw [List.take_of_length_le hlen2]
      exact (sortRanked_perm _ _).mem_iff.mpr
        (mem_simsList.mpr ⟨hthr, hi, rfl⟩)

/-- C8 counterexample to the as-stated claim: with an empty query vector
(and default `min_similarity = 0`), evaluating every candidate would give
each the qualifying score 0, yet `find_most_similar` short-circuits to
the empty list. -/
theorem C8_counterexample :
    find_most_similar [] [[1]] 1 0 = []
    ∧ Score.leB ⟨0, 1⟩ (cosine_similarity [] ([[1]].getD 0 [])) = true := by
  constructor
  · norm_num [find_most_similar]
  · norm_num [Score.leB, sqrtLe, cosine_similarity]

/-- Witness for C8 at a concrete input exercising every conjunct,
including completeness of the under-full result. -/
theorem C8_witness :
    (find_most_similar [1] [[1]] 5 0).length < 5
    ∧ (0, cosine_similarity [1] ([[1]].getD 0 [])) ∈
        find_most_similar [1] [[1]] 5 0 :=
  have hlen : (find_most_similar [1] [[1]] 5 0).length < 5 := by
    norm_num [find_most_similar, sortRanked, insertRanked, scoreGe,
      cosine_similarity, magSq, dotList, Score.leB, sqrtLe]
  ⟨hlen,
    (C8_find_most_similar_ranked [1] [[1]] 5 0).2.2.2 (by norm_num) hlen
      0 (by norm_num)
      (by norm_num [Score.leB, sqrtLe, cosine_similarity, magSq, dotList])⟩

/-! ## Claim C2 -/

/-- Stable descending sort of strictly ascending keys reverses the list. -/
theorem sortRanked_recentGe_of_ascending (l : List MemoryRecord)
    (h : l.Pairwise (fun a b => a.stored_at < b.stored_at)) :
    sortRanked recentGe l = l.reverse := by
  induction l with
  | nil => rfl
  | cons a l ih =>
      rw [List.pairwise_cons] at h
      rw [sortRanked, ih h.2, List.reverse_cons]
      refine insertRanked_append recentGe a l.reverse ?_
      intro b hb
      have hab := h.1 b (List.mem_reverse.mp hb)
      exact decide_eq_false (by omega)

/-- C2 (amended): when `stored_at` strictly increases along insertion
order, `get_recent(N)` over the `N` stored rows returns them newest
first, `[rN, …, r1]`; the result is deterministic.  The source orders by
`stored_at` value, not by row sequence number: rows sharing a
`stored_at` tick are returned in ascending insertion order (the
`idx_stored_at` index scan), so the as-stated tie-break guarantee fails
— see the counterexample. -/
theorem C2_get_recent_recency (s : SQLiteMemory)
    (h : s.rows.Pairwise (fun a b => a.stored_at < b.stored_at)) :
    get_recent s s.rows.length = s.rows.reverse := by
  rw [get_recent, sortRanked_recentGe_of_ascending s.rows h,
    ← List.length_reverse, List.take_length]

/-- C2 counterexample: rows `recA`, `recB` stored in that order with the
same `stored_at` tick are returned by `get_recent 2` as `[recA, recB]`,
not the claimed `[recB, recA]` (descending row sequence). -/
theorem C2_counterexample : get_recent tieState 2 ≠ [recB, recA] := by
  decide

/-- Witness for C2 on a store whose timestamps strictly increase. -/
theorem C2_witness :
    ascState.rows.Pairwise (fun a b => a.stored_at < b.stored_at)
    ∧ get_recent ascState ascState.rows.length = ascState.rows.reverse :=
  ⟨by decide, C2_get_recent_recency ascState (by decide)⟩

/-! ## Claim C10 -/

/-- C10: whenever vector search is disabled, or the flow reaches the
native index query and it fails at runtime, `vector_similarity_search`
returns the `get_recent(limit)` records each paired with score 0.0.
The degraded result is literally `get_recent` mapped with a constant
score: it is the same for every `min_similarity` (the threshold is
ignored) and it draws from all recent rows, embedded or not. -/
theorem C10_degraded_recency (s : SQLiteMemory) (cachedFails : Bool)
    (vssOutcome : Option (List (MemoryRecord × Score))) (q : Vec)
    (limit : ℕ) (minSim : ℚ) :
    (s.vector_search_enabled = false →
      (vector_similarity_search s cachedFails vssOutcome q limit minSim).2
        = (get_recent s limit).map (fun r => (r, ⟨0, 1⟩)))
    ∧ (s.enable_index_caching = false ∨ cachedFails = true →
        vssOutcome = none →
        (vector_similarity_search s cachedFails vssOutcome q limit minSim).2
          = (get_recent s limit).map (fun r => (r, ⟨0, 1⟩))) := by
  constructor
  · intro h
    rw [vector_similarity_search.eq_def]
    simp [h]
  · intro h1 h2
    rw [vector_similarity_search.eq_def]
    by_cases he : s.vector_search_enabled
    · have hc : (s.enable_index_caching && !cachedFails) = false := by
        rcases h1 with h | h <;> simp [h]
      simp [he, hc, h2]
    · simp [he]

/-- Witness for C10: a disabled store returns its recent rows — among
them `recU`, which has no embedding — each scored 0.0, although
`min_similarity` is 1. -/
theorem C10_witness :
    (vector_similarity_search mixedState false none [1] 5 1).2
      = [(recU, ⟨0, 1⟩), (recE, ⟨0, 1⟩)]
    ∧ recU.embedding = none :=
  ⟨by
    rw [(C10_degraded_recency mixedState false none [1] 5 1).1 rfl]
    decide, rfl⟩

/-! ## Claim C1 -/

/-- C1 (amended): `vector_similarity_search` is total — every failure
path returns a (possibly degraded) list of (record, score) pairs rather
than raising — but the strategy order is: cache-accelerated search
first (whenever index caching is enabled and does not fail), then the
native sqlite-vss index, then plain recency with score 0.0.  The native
index, when consulted at all, is tried *after* the cache, and no
brute-force-over-rows strategy is interposed before recency (the
as-stated order index → cache → brute force → recency is refuted by the
counterexample). -/
theorem C1_fallback_order (s : SQLiteMemory) (cachedFails : Bool)
    (vssOutcome : Option (List (MemoryRecord × Score))) (q : Vec)
    (limit : ℕ) (minSim : ℚ) :
    (s.vector_search_enabled = false →
      (vector_similarity_search s cachedFails vssOutcome q limit minSim).2
        = (get_recent s limit).map (fun r => (r, ⟨0, 1⟩)))
    ∧ (s.vector_search_enabled = true → s.enable_index_caching = true →
        cachedFails = false →
        (vector_similarity_search s cachedFails vssOutcome q limit minSim).2
          = (cached_similarity_search s q limit minSim).2)
    ∧ (∀ res, s.vector_search_enabled = true →
        (s.enable_index_caching = false ∨ cachedFails = true) →
        vssOutcome = some res →
        (vector_similarity_search s cachedFails vssOutcome q limit minSim).2
          = res)
    ∧ (s.vector_search_enabled = true →
        (s.enable_index_caching = false ∨ cachedFails = true) →
        vssOutcome = none →
        (vector_similarity_search s cachedFails vssOutcome q limit minSim).2
          = (get_recent s limit).map (fun r => (r, ⟨0, 1⟩))) := by
  refine ⟨?_, ?_, ?_, ?_⟩
  · intro h
    rw [vector_similarity_search.eq_def]; simp [h]
  · intro h1 h2 h3
    rw [vector_similarity_search.eq_def]; simp [h1, h2, h3]
  · intro res h1 h2 h3
    have hc : (s.enable_index_caching && !cachedFails) = false := by
      rcases h2 with h | h <;> simp [h]
    rw [vector_similarity_search.eq_def]; simp [h1, hc, h3]
  · intro h1 h2 h3
    have hc : (s.enable_index_caching && !cachedFails) = false := by
      rcases h2 with h | h <;> simp [h]
    rw [vector_similarity_search.eq_def]; simp [h1, hc, h3]

/-- C1 counterexample: index caching is enabled and healthy, the native
index query succeeds with the empty answer, yet the caller receives the
cache path's answer `[(recE, 1)]` — so on this input the strategy order
claimed (native index first) does not hold. -/
theorem C1_counterexample :
    (vector_similarity_search liveState false (some []) [1] 5 0).2
      = [(recE, ⟨1, 1⟩)] := by
  have h0 : (vector_similarity_search liveState false (some []) [1] 5 0).2
      = (cached_similarity_search liveState [1] 5 0).2 := rfl
  have h1 : cached_similarity_search liveState [1] 5 0
      = ({ liveState with cache := some [(1, [1])] },
         fetchRecords liveState.rows (cachedSearchCore [(1, [1])] [1] 5 0)) :=
    rfl
  have h2 : cachedSearchCore [(1, [1])] [1] 5 0 = [(1, (⟨1, 1⟩ : Score))] := by
    norm_num [cachedSearchCore, magSq, dotList, Score.leB, sqrtLe, scoreGe,
      sortRanked, insertRanked, List.filterMap_cons, List.filterMap_nil]
  rw [h0, h1, h2]
  decide

/-- Witness for C1: with caching enabled and healthy, the call returns
the cache path's result even though the native index reports success. -/
theorem C1_witness :
    (vector_similarity_search liveState false (some []) [1] 5 (1/2)).2
      = (cached_similarity_search liveState [1] 5 (1/2)).2 :=
  (C1_fallback_order liveState false (some []) [1] 5 (1/2)).2.1 rfl rfl rfl

/-! ## Claim C5 -/

/-- C5 (amended): on a store with vector search *disabled*,
`update_embedding` mutates only the embedding field: every other field
of every row and the vss mirror are preserved, unmatched rows are
untouched, and the matched row's embedding is set to the given vector —
unconditionally, so a later call with a different vector replaces an
embedding that is already present (the as-stated at-most-once
absent→present transition is refuted by the counterexample); the
returned flag reports whether a row was matched.  On a vector-search-
*enabled* store the call always fails and mutates nothing: its
connection never loads sqlite-vss, so the UPDATE cannot compile the
`vss0`-referencing embedding-update trigger and the `except` path
returns `False`. -/
theorem C5_update_embedding_frame (s : SQLiteMemory) (mid : String)
    (v : Vec) (i : ℕ) (r r' : MemoryRecord) :
    (s.vector_search_enabled = true → update_embedding s mid v = (s, false))
    ∧ (s.vector_search_enabled = false →
        (update_embedding s mid v).2 = decide (0 < matchCount s.rows mid)
        ∧ (update_embedding s mid v).1.vssRows = s.vssRows
        ∧ (s.rows[i]? = some r →
            (update_embedding s mid v).1.rows[i]? = some r' →
            r'.id = r.id ∧ r'.content = r.content ∧ r'.stored_at = r.stored_at
            ∧ r'.context = r.context ∧ r'.metadata = r.metadata
            ∧ r'.is_evolved_knowledge = r.is_evolved_knowledge
            ∧ r'.evolution_metadata = r.evolution_metadata
            ∧ r'.reliability_multiplier = r.reliability_multiplier
            ∧ r'.agent_response = r.agent_response
            ∧ r'.embedding = (if r.id = mid then some v else r.embedding)))
    := by
  constructor
  · intro h
    rw [update_embedding, if_pos h]
  · intro h
    have hdef : update_embedding s mid v
        = ({ s with rows := setEmbedding s.rows mid v },
           decide (0 < matchCount s.rows mid)) := by
      simp [update_embedding, h]
    refine ⟨by rw [hdef], by rw [hdef], ?_⟩
    intro hr hr'
    have hrows : (update_embedding s mid v).1.rows
        = setEmbedding s.rows mid v := by
      rw [hdef]
    rw [hrows, setEmbedding, List.getElem?_map, hr] at hr'
    simp only [Option.map_some', Option.some.injEq] at hr'
    by_cases hid : r.id = mid
    · rw [if_pos hid] at hr'
      subst hr'
      simp [hid]
    · rw [if_neg hid] at hr'
      subst hr'
      simp [hid]

/-- C5 counterexample: the single row of `offState` (vector search
disabled, so the UPDATE compiles and runs) already carries embedding
`[1]`; `update_embedding` replaces it with `[2]`, so embedding values
are not write-once. -/
theorem C5_counterexample :
    offState.rows.map (fun r => r.embedding) = [some [1]]
    ∧ (update_embedding offState "e" [2]).1.rows.map (fun r => r.embedding)
      = [some [2]] := by
  constructor <;> decide

/-- Witness for C5 at a concrete matched row of a disabled store. -/
theorem C5_witness :
    ({ recE with embedding := some [2] } : MemoryRecord).embedding
      = (if recE.id = "e" then some [2] else recE.embedding) :=
  (((C5_update_embedding_frame offState "e" [2] 0 recE
      { recE with embedding := some [2] }).2 rfl).2.2 (by decide)
    (by decide)).2.2.2.2.2.2.2.2.2

/-! ## Claim C7 -/

/-- After a migration, no embedded rowid is missing from the mirror. -/
theorem missingRowids_append_missing (s t : SQLiteMemory)
    (hrows : t.rows = s.rows)
    (hvss : t.vssRows = s.vssRows ++ missingRowids s) :
    missingRowids t = [] := by
  rw [missingRowids, hrows, hvss]
  refine List.filterMap_eq_nil_iff.mpr ?_
  intro p hp
  by_cases hmem : p.1 ∈ s.vssRows ++ missingRowids s
  · simp [hmem]
  · exfalso
    rw [List.mem_append] at hmem
    push_neg at hmem
    exact hmem.2 (List.mem_filterMap.mpr ⟨p, hp, by simp [hmem.1]⟩)

/-- C7 (amended): when vector search is enabled,
`migrate_existing_embeddings` returns the number of embedded rows
absent from the vss mirror and backfills exactly those; when it is
disabled, the routine is skipped and returns 0 even if embedded rows
are absent from the mirror (refuting the as-stated "for every store
state"; see the counterexample).  In every state a second call with no
intervening writes returns 0, and a call with nothing to migrate
returns 0. -/
theorem C7_migrate_idempotent (s : SQLiteMemory) :
    (s.vector_search_enabled = true →
      (migrate_existing_embeddings s).2 = (missingRowids s).length
      ∧ (migrate_existing_embeddings s).1.vssRows
          = s.vssRows ++ missingRowids s)
    ∧ (migrate_existing_embeddings (migrate_existing_embeddings s).1).2 = 0
    ∧ (missingRowids s = [] → (migrate_existing_embeddings s).2 = 0) := by
  refine ⟨?_, ?_, ?_⟩
  · intro h
    rw [migrate_existing_embeddings]
    simp [h]
  · by_cases h : s.vector_search_enabled
    · have h1 : (migrate_existing_embeddings s).1
          = { s with vssRows := s.vssRows ++ missingRowids s } := by
        rw [migrate_existing_embeddings]; simp [h]
      have h2 : missingRowids (migrate_existing_embeddings s).1 = [] := by
        rw [h1]
        exact missingRowids_append_missing s _ rfl rfl
      rw [migrate_existing_embeddings, h2]
      by_cases hc : (migrate_existing_embeddings s).1.vector_search_enabled <;>
        simp [hc]
    · have h1 : migrate_existing_embeddings s = (s, 0) := by
        rw [migrate_existing_embeddings]; simp [h]
      rw [h1]
      show (migrate_existing_embeddings s).2 = 0
      rw [h1]
  · intro h
    rw [migrate_existing_embeddings]
    simp [h]

/-- C7 counterexample: vector search disabled, one embedded row, empty
mirror: an embedded row is absent from the mirror, but the call returns
0 and backfills nothing. -/
theorem C7_counterexample :
    (migrate_existing_embeddings offState).2 = 0
    ∧ (missingRowids offState).length = 1 := by
  constructor <;> decide

/-- Witness for C7 on an enabled store with one unmirrored embedded
row: the first call returns 1, the second 0. -/
theorem C7_witness :
    (migrate_existing_embeddings onState).2 = 1
    ∧ (migrate_existing_embeddings
        (migrate_existing_embeddings onState).1).2 = 0 :=
  ⟨by
    rw [((C7_migrate_idempotent onState).1 rfl).1]
    decide,
   (C7_migrate_idempotent onState).2.1⟩

/-! ## Claim C6 -/

/-- The per-row effect of the chained batch UPDATEs. -/
def batchRowFn (pairs : List (String × Vec)) (r : MemoryRecord) :
    MemoryRecord :=
  pairs.foldl (fun r p =>
    if r.id = p.1 then { r with embedding := some p.2 } else r) r

/-- `update_embedding` changes neither the configuration flags nor the
vss mirror. -/
theorem update_embedding_flags (s : SQLiteMemory) (mid : String) (v : Vec) :
    (update_embedding s mid v).1.vector_search_enabled
      = s.vector_search_enabled
    ∧ (update_embedding s mid v).1.vssRows = s.vssRows := by
  rw [update_embedding]
  by_cases h : s.vector_search_enabled <;> simp [h]

/-- The state component of the batch fold ignores the running count. -/
theorem batch_foldl_fst (pairs : List (String × Vec)) :
    ∀ (s : SQLiteMemory) (n : ℕ),
      (pairs.foldl (fun acc p =>
          ((update_embedding acc.1 p.1 p.2).1,
           acc.2 + matchCount acc.1.rows p.1)) (s, n)).1
        = (batchFold s pairs).1 := by
  induction pairs with
  | nil => intro s n; rfl
  | cons p ps ih =>
      intro s n
      rw [batchFold]
      simp only [List.foldl_cons]
      rw [ih, ih]

/-- The count component of the batch fold is the initial count plus the
fold's count. -/
theorem batch_foldl_snd (pairs : List (String × Vec)) :
    ∀ (s : SQLiteMemory) (n : ℕ),
      (pairs.foldl (fun acc p =>
          ((update_embedding acc.1 p.1 p.2).1,
           acc.2 + matchCount acc.1.rows p.1)) (s, n)).2
        = n + (batchFold s pairs).2 := by
  induction pairs with
  | nil => intro s n; rfl
  | cons p ps ih =>
      intro s n
      rw [batchFold]
      simp only [List.foldl_cons]
      rw [ih, ih]
      omega

/-- On a disabled store both batch guards fall through to the fold
(the empty fold is the pair `(s, 0)` as well). -/
theorem batch_eq_fold_of_disabled (s : SQLiteMemory)
    (pairs : List (String × Vec)) (h : s.vector_search_enabled = false) :
    batch_update_embeddings s pairs = batchFold s pairs := by
  rw [batch_update_embeddings]
  by_cases hp : pairs = []
  · subst hp
    simp [batchFold]
  · simp [hp, h]

theorem setEmbedding_ids (rows : List MemoryRecord) (mid : String) (v : Vec) :
    (setEmbedding rows mid v).map (fun r => r.id)
      = rows.map (fun r => r.id) := by
  rw [setEmbedding, List.map_map]
  refine List.map_congr_left ?_
  intro r _
  by_cases h : r.id = mid <;> simp [h]

/-- The matched-row count depends only on the id column. -/
theorem matchCount_congr (rows rows' : List MemoryRecord) (mid : String)
    (h : rows.map (fun r => r.id) = rows'.map (fun r => r.id)) :
    matchCount rows mid = matchCount rows' mid := by
  have key : ∀ l : List MemoryRecord, matchCount l mid
      = (l.map (fun r => r.id)).countP (fun x => x = mid) := by
    intro l
    rw [matchCount, ← List.countP_eq_length_filter, List.countP_map]
    rfl
  rw [key, key, h]

/-- With unique ids, a pair whose id exists matches exactly one row. -/
theorem matchCount_eq_one (rows : List MemoryRecord) (mid : String)
    (hnd : (rows.map (fun r => r.id)).Nodup)
    (hex : ∃ r ∈ rows, r.id = mid) :
    matchCount rows mid = 1 := by
  induction rows with
  | nil => rcases hex with ⟨r, hr, _⟩; exact absurd hr (List.not_mem_nil r)
  | cons a l ih =>
      rw [List.map_cons, List.nodup_cons] at hnd
      by_cases h : a.id = mid
      · have hz : matchCount l mid = 0 := by
          rw [matchCount, List.length_eq_zero, List.filter_eq_nil_iff]
          intro r hr hrid
          rw [decide_eq_true_eq] at hrid
          exact hnd.1 (h ▸ hrid ▸ List.mem_map_of_mem (fun r => r.id) hr)
        rw [matchCount, List.filter_cons]
        have hd : decide (a.id = mid) = true := by simp [h]
        rw [hd]
        simp only [if_true, List.length_cons]
        rw [matchCount] at hz
        rw [hz]
      · rcases hex with ⟨r, hr, hrid⟩
        rcases List.mem_cons.mp hr with rfl | hr
        · exact absurd hrid h
        · have hone := ih hnd.2 ⟨r, hr, hrid⟩
          rw [matchCount, List.filter_cons]
          have hd : decide (a.id = mid) = false := by simp [h]
          rw [hd]
          simp only [Bool.false_eq_true, if_false]
          exact hone

/-- The table after a batch update is the original table mapped by the
per-row batch function. -/
theorem batch_rows_eq_map (pairs : List (String × Vec)) :
    ∀ s : SQLiteMemory, s.vector_search_enabled = false →
      (batchFold s pairs).1.rows = s.rows.map (batchRowFn pairs) := by
  induction pairs with
  | nil =>
      intro s _
      show s.rows = s.rows.map (batchRowFn [])
      have h1 : s.rows.map (batchRowFn []) = s.rows.map id :=
        List.map_congr_left (fun r _ => rfl)
      rw [h1, List.map_id]
  | cons p ps ih =>
      intro s hs
      rw [batchFold]
      simp only [List.foldl_cons]
      have hflag : (update_embedding s p.1 p.2).1.vector_search_enabled
          = false := by
        rw [(update_embedding_flags s p.1 p.2).1, hs]
      have hupd : (update_embedding s p.1 p.2).1.rows
          = setEmbedding s.rows p.1 p.2 := by
        simp [update_embedding, hs]
      rw [batch_foldl_fst, ih _ hflag, hupd]
      show (setEmbedding s.rows p.1 p.2).map (batchRowFn ps) = _
      rw [setEmbedding, List.map_map]
      refine List.map_congr_left ?_
      intro r _
      rfl

/-- The batch count equals the number of pairs when the statements run
(vector search disabled) and every pair matches exactly one row. -/
theorem batch_count (pairs : List (String × Vec)) :
    ∀ s : SQLiteMemory, s.vector_search_enabled = false →
      (∀ p ∈ pairs, matchCount s.rows p.1 = 1) →
      (batchFold s pairs).2 = pairs.length := by
  induction pairs with
  | nil => intro s _ _; rfl
  | cons p ps ih =>
      intro s hs hm
      rw [batchFold]
      simp only [List.foldl_cons]
      rw [batch_foldl_snd]
      have hflag : (update_embedding s p.1 p.2).1.vector_search_enabled
          = false := by
        rw [(update_embedding_flags s p.1 p.2).1, hs]
      have hupd : (update_embedding s p.1 p.2).1.rows
          = setEmbedding s.rows p.1 p.2 := by
        simp [update_embedding, hs]
      have hid : (update_embedding s p.1 p.2).1.rows.map (fun r => r.id)
          = s.rows.map (fun r => r.id) := by
        rw [hupd]
        exact setEmbedding_ids s.rows p.1 p.2
      rw [ih (update_embedding s p.1 p.2).1 hflag (fun q hq => by
        rw [matchCount_congr _ s.rows q.1 hid]
        exact hm q (List.mem_cons_of_mem p hq))]
      rw [hm p (List.mem_cons_self p ps)]
      simp [Nat.add_comm]

/-- The per-row batch function never removes an embedding. -/
theorem batchRowFn_keeps_embedding (pairs : List (String × Vec)) :
    ∀ r : MemoryRecord, r.embedding.isSome = true →
      (batchRowFn pairs r).embedding.isSome = true := by
  induction pairs with
  | nil => intro r h; exact h
  | cons p ps ih =>
      intro r h
      rw [batchRowFn, List.foldl_cons]
      by_cases hid : r.id = p.1
      · exact ih _ (by simp [hid])
      · exact ih _ (by simp [hid, h])

theorem embCount_cons (r : MemoryRecord) (l : List MemoryRecord) :
    embCount (r :: l)
      = (if r.embedding.isSome then 1 else 0) + embCount l := by
  rw [embCount, embCount, List.filter_cons]
  by_cases h : r.embedding.isSome
  · simp only [h, if_true, List.length_cons]
    omega
  · simp [h]

/-- Counting embedded rows through an embedding-preserving row map. -/
theorem embCount_map_mono (G : MemoryRecord → MemoryRecord)
    (hG : ∀ r, r.embedding.isSome = true → (G r).embedding.isSome = true) :
    ∀ l : List MemoryRecord,
      embCount (l.map G) = embCount l
        + ((l.zip (l.map G)).filter
            (fun rr => rr.1.embedding.isNone && rr.2.embedding.isSome)).length
  | [] => rfl
  | a :: l => by
      rw [List.map_cons, List.zip_cons_cons, List.filter_cons,
        embCount_cons, embCount_cons, embCount_map_mono G hG l]
      rcases hopt : a.embedding with _ | v
      · simp only [hopt, Option.isSome_none, Bool.false_eq_true, if_false,
          Option.isNone_none, Bool.true_and]
        by_cases hb : (G a).embedding.isSome
        · simp only [hb, if_true, List.length_cons]
          omega
        · simp only [hb, Bool.false_eq_true, if_false]
          omega
      · have hGa := hG a (by rw [hopt]; rfl)
        simp only [hopt, Option.isSome_some, if_true, hGa,
          Option.isNone_some, Bool.false_and, Bool.false_eq_true, if_false]
        omega

/-- C6 (amended): on a store with vector search *disabled* (so the
UPDATEs compile and run), `batch_update_embeddings` over K pairs whose
ids each match an existing record (ids are unique — the id column is
the primary key) returns exactly K, the number of rows actually
matched, and the statistics' embedded-row count grows by exactly the
number of rows that gained an embedding in the batch.  On a
vector-search-*enabled* store the call always fails with no mutation
and returns 0 (refuting the as-stated "for every store state"; see the
counterexample): its connection never loads sqlite-vss, so the
`executemany` cannot compile the `vss0`-referencing embedding-update
trigger and the transaction rolls back. -/
theorem C6_batch_accounting (s : SQLiteMemory) (pairs : List (String × Vec))
    (hnd : (s.rows.map (fun r => r.id)).Nodup)
    (hmatch : ∀ p ∈ pairs, ∃ r ∈ s.rows, r.id = p.1) :
    (s.vector_search_enabled = true →
      batch_update_embeddings s pairs = (s, 0))
    ∧ (s.vector_search_enabled = false →
        (batch_update_embeddings s pairs).2 = pairs.length
        ∧ (get_embedding_statistics
              (batch_update_embeddings s pairs).1).records_with_embeddings
          = (get_embedding_statistics s).records_with_embeddings
            + ((s.rows.zip (batch_update_embeddings s pairs).1.rows).filter
                (fun rr =>
                  rr.1.embedding.isNone && rr.2.embedding.isSome)).length)
    := by
  constructor
  · intro h
    rw [batch_update_embeddings]
    by_cases hp : pairs = [] <;> simp [hp, h]
  · intro h
    rw [batch_eq_fold_of_disabled s pairs h]
    constructor
    · exact batch_count pairs s h
        (fun p hp => matchCount_eq_one s.rows p.1 hnd (hmatch p hp))
    · show embCount (batchFold s pairs).1.rows = embCount s.rows + _
      rw [batch_rows_eq_map pairs s h]
      exact embCount_map_mono (batchRowFn pairs)
        (batchRowFn_keeps_embedding pairs) s.rows

/-- C6 counterexample: on the vector-search-enabled store `onState`,
one pair matching the existing row yields 0, not K = 1, and the store
is unchanged — the connection cannot compile the embedding-update
trigger, so the UPDATE never runs. -/
theorem C6_counterexample :
    (batch_update_embeddings onState [("e", [2])]).2 = 0
    ∧ (batch_update_embeddings onState [("e", [2])]).1 = onState
    ∧ matchCount onState.rows "e" = 1 := by
  refine ⟨?_, ?_, ?_⟩ <;> decide

/-- Witness for C6: on the disabled store `mixedState`, one pair
targeting the unembedded row returns 1 and raises the embedded count by
the one row that gained an embedding. -/
theorem C6_witness :
    (batch_update_embeddings mixedState [("u", [1, 2])]).2 = 1
    ∧ (get_embedding_statistics
          (batch_update_embeddings mixedState
            [("u", [1, 2])]).1).records_with_embeddings
      = (get_embedding_statistics mixedState).records_with_embeddings
        + ((mixedState.rows.zip
              (batch_update_embeddings mixedState
                [("u", [1, 2])]).1.rows).filter
            (fun rr => rr.1.embedding.isNone && rr.2.embedding.isSome)).length
    :=
  (C6_batch_accounting mixedState [("u", [1, 2])] (by decide) (by decide)).2
    rfl

/-! ## Claim C4 -/

theorem storeRecord_rows (s : SQLiteMemory) (r : MemoryRecord) :
    (storeRecord s r).rows
      = s.rows ++ [{ r with embedding := storedEmbedding r.embedding }] :=
  rfl

theorem storeRecord_cache (s : SQLiteMemory) (r : MemoryRecord) :
    (storeRecord s r).cache = s.cache := rfl

theorem storeRecord_caching (s : SQLiteMemory) (r : MemoryRecord) :
    (storeRecord s r).enable_index_caching = s.enable_index_caching := rfl

theorem embCount_append_embedded (rows : List MemoryRecord)
    (row : MemoryRecord) (h : row.embedding.isSome = true) :
    embCount (rows ++ [row]) = embCount rows + 1 := by
  rw [embCount, embCount, List.filter_append, List.length_append,
    List.filter_cons]
  simp [h]

theorem embRows_append (rows : List MemoryRecord) (row : MemoryRecord)
    (v : Vec) (h : row.embedding = some v) :
    embRows (rows ++ [row]) = embRows rows ++ [(rows.length + 1, v)] := by
  rw [embRows, embRows, List.enum_append, List.filterMap_append]
  congr 1
  rw [List.enumFrom_singleton, List.filterMap_cons]
  simp [h]

/-- C4: after storing a record carrying a (nonempty) embedding, the
immediately following cached similarity search computes over the fresh
table: the growth-based staleness test fires — the embedded-row count
now exceeds the size of any cache built beforehand — so the cache is
rebuilt from the current rows and the search result equals the search
evaluated directly over the current rows: no stale omission due to the
embedding cache.  In particular the stored record itself (at the new
rowid) appears in the result whenever its score survives the threshold
filter and the top-`limit` selection. -/
theorem C4_fresh_after_store (s : SQLiteMemory) (r : MemoryRecord) (v : Vec)
    (hcaching : s.enable_index_caching = true)
    (hcache : cacheCount s ≤ embCount s.rows)
    (hemb : r.embedding = some v) (hv : v ≠ [])
    (q : Vec) (limit : ℕ) (minSim : ℚ) :
    (cached_similarity_search (storeRecord s r) q limit minSim).2
      = freshSearch (storeRecord s r).rows q limit minSim
    ∧ (∀ sc : Score,
        ((storeRecord s r).rows.length, sc) ∈
          cachedSearchCore (embRows (storeRecord s r).rows) q limit minSim →
        ({ r with embedding := some v }, sc) ∈
          (cached_similarity_search (storeRecord s r) q limit minSim).2) := by
  have hrow : ({ r with embedding := storedEmbedding r.embedding }
      : MemoryRecord) = { r with embedding := some v } := by
    obtain ⟨x, l, rfl⟩ := List.exists_cons_of_ne_nil hv
    rw [hemb]
    rfl
  have hcount : embCount (storeRecord s r).rows = embCount s.rows + 1 := by
    rw [storeRecord_rows, hrow]
    exact embCount_append_embedded s.rows _ (by simp)
  have hembrows : embRows (storeRecord s r).rows
      = embRows s.rows ++ [(s.rows.length + 1, v)] := by
    rw [storeRecord_rows, hrow]
    exact embRows_append s.rows _ v (by simp)
  have hrebuild : needs_cache_rebuild (storeRecord s r) = true := by
    rw [needs_cache_rebuild, storeRecord_caching, hcaching]
    simp only [Bool.not_true, Bool.false_eq_true, if_false]
    rcases hsc : (storeRecord s r).cache with _ | data
    · simp
    · simp only [hsc, Option.isNone_some, Bool.false_eq_true, if_false,
        decide_eq_true_eq]
      have h1 : cacheCount (storeRecord s r) = cacheCount s := by
        rw [cacheCount, cacheCount, storeRecord_cache]
      rw [h1, hcount]
      omega
  have hne : embRows (storeRecord s r).rows ≠ [] := by
    rw [hembrows]
    simp
  have hcaching2 : (storeRecord s r).enable_index_caching = true := hcaching
  have hrebuildCache : rebuildCache (storeRecord s r)
      = { storeRecord s r with
          cache := some (embRows (storeRecord s r).rows) } := by
    rw [rebuildCache, hcaching2]
    simp only [Bool.not_true, Bool.false_eq_true, if_false, hne]
    rw [hcaching2]
  have hmain : (cached_similarity_search (storeRecord s r) q limit minSim).2
      = freshSearch (storeRecord s r).rows q limit minSim := by
    rw [cached_similarity_search, hrebuild]
    simp only [if_true]
    rw [hrebuildCache]
    rfl
  refine ⟨hmain, ?_⟩
  intro sc hsc
  rw [hmain, freshSearch]
  refine List.mem_filterMap.mpr ⟨((storeRecord s r).rows.length, sc), hsc, ?_⟩
  have hlen : (storeRecord s r).rows.length = s.rows.length + 1 := by
    rw [storeRecord_rows]
    simp
  have hget : (storeRecord s r).rows[(storeRecord s r).rows.length - 1]?
      = some { r with embedding := some v } := by
    rw [hlen, Nat.add_sub_cancel, storeRecord_rows, hrow]
    exact List.getElem?_concat_length s.rows _
  simp only [hget, Option.map_some']

/-- Witness for C4: storing `recE` into an empty store and searching at
once returns the fresh-table search result. -/
theorem C4_witness :
    (cached_similarity_search (storeRecord emptyState recE) [1] 5 0).2
      = freshSearch (storeRecord emptyState recE).rows [1] 5 0 :=
  (C4_fresh_after_store emptyState recE [1] rfl (by decide) rfl (by decide)
    [1] 5 0).1

/-! ## Claim C3 -/

/-- Bridge between the two filter pipelines: the cache core's filterMap
over `(rowid, vector)` pairs equals the brute-force filter over the
enumerated vectors, with enumeration indices mapped back to rowids,
provided the query and every row vector have nonzero magnitude and
matching dimensions. -/
theorem filterPipeline_eq (q : Vec) (minSim : ℚ) (hq : magSq q ≠ 0) :
    ∀ (data : List (ℕ × Vec)) (n : ℕ) (g : ℕ → ℕ),
      (∀ rv ∈ data, magSq rv.2 ≠ 0 ∧ rv.2.length = q.length) →
      (∀ i, i < data.length →
        g (n + i) = (data.map (fun rv => rv.1)).getD i 0) →
      data.filterMap (fun rv =>
          if magSq q = 0 ∨ magSq rv.2 = 0 then none
          else
            let sc : Score := ⟨dotList q rv.2, magSq q * magSq rv.2⟩
            if Score.leB ⟨minSim, 1⟩ sc then some (rv.1, sc) else none)
        = ((((data.map (fun rv => rv.2)).enumFrom n).map
              (fun ic => (ic.1, cosine_similarity q ic.2))).filter
            (fun p => Score.leB ⟨minSim, 1⟩ p.2)).map
            (fun p => (g p.1, p.2)) := by
  intro data
  induction data with
  | nil => intro n g _ _; rfl
  | cons d rest ih =>
      intro n g hvec hg
      have hd := hvec d (List.mem_cons_self d rest)
      have hguard : ¬(magSq q = 0 ∨ magSq d.2 = 0) := by
        rintro (h | h)
        · exact hq h
        · exact hd.1 h
      have hcos : cosine_similarity q d.2
          = ⟨dotList q d.2, magSq q * magSq d.2⟩ :=
        cosine_similarity_eq q d.2 hd.2.symm hq hd.1
      have hgn : g n = d.1 := by
        have := hg 0 (by simp)
        simpa using this
      have hgtail : ∀ i, i < rest.length →
          g (n + 1 + i) = (rest.map (fun rv => rv.1)).getD i 0 := by
        intro i hi
        have := hg (i + 1) (by simp; omega)
        rw [show n + (i + 1) = n + 1 + i by omega] at this
        simpa using this
      have ihr := ih (n + 1) g
        (fun rv hrv => hvec rv (List.mem_cons_of_mem d hrv)) hgtail
      rw [List.map_cons, List.enumFrom_cons, List.map_cons, List.filter_cons]
      by_cases hthr : Score.leB ⟨minSim, 1⟩
          ⟨dotList q d.2, magSq q * magSq d.2⟩ = true
      · have hfd : (fun rv : ℕ × Vec =>
            if magSq q = 0 ∨ magSq rv.2 = 0 then none
            else
              let sc : Score := ⟨dotList q rv.2, magSq q * magSq rv.2⟩
              if Score.leB ⟨minSim, 1⟩ sc then some (rv.1, sc) else none) d
            = some (d.1, ⟨dotList q d.2, magSq q * magSq d.2⟩) := by
          simp only [if_neg hguard]
          simp only [hthr, if_true]
        have hstep : List.filterMap (fun rv : ℕ × Vec =>
              if magSq q = 0 ∨ magSq rv.2 = 0 then none
              else
                let sc : Score := ⟨dotList q rv.2, magSq q * magSq rv.2⟩
                if Score.leB ⟨minSim, 1⟩ sc then some (rv.1, sc) else none)
            (d :: rest)
            = (d.1, (⟨dotList q d.2, magSq q * magSq d.2⟩ : Score)) ::
              List.filterMap (fun rv : ℕ × Vec =>
                if magSq q = 0 ∨ magSq rv.2 = 0 then none
                else
                  let sc : Score := ⟨dotList q rv.2, magSq q * magSq rv.2⟩
                  if Score.leB ⟨minSim, 1⟩ sc then some (rv.1, sc) else none)
                rest := List.filterMap_cons_some hfd
        rw [hstep]
        simp only [hcos, hthr, if_true, List.map_cons, hgn]
        rw [ihr]
      · have hfd : (fun rv : ℕ × Vec =>
            if magSq q = 0 ∨ magSq rv.2 = 0 then none
            else
              let sc : Score := ⟨dotList q rv.2, magSq q * magSq rv.2⟩
              if Score.leB ⟨minSim, 1⟩ sc then some (rv.1, sc) else none) d
            = none := by
          simp only [if_neg hguard]
          simp only [hthr, Bool.false_eq_true, if_false]
        have hstep : List.filterMap (fun rv : ℕ × Vec =>
              if magSq q = 0 ∨ magSq rv.2 = 0 then none
              else
                let sc : Score := ⟨dotList q rv.2, magSq q * magSq rv.2⟩
                if Score.leB ⟨minSim, 1⟩ sc then some (rv.1, sc) else none)
            (d :: rest)
            = List.filterMap (fun rv : ℕ × Vec =>
                if magSq q = 0 ∨ magSq rv.2 = 0 then none
                else
                  let sc : Score := ⟨dotList q rv.2, magSq q * magSq rv.2⟩
                  if Score.leB ⟨minSim, 1⟩ sc then some (rv.1, sc) else none)
                rest := List.filterMap_cons_none hfd
        rw [hstep]
        simp only [hcos, hthr, Bool.false_eq_true, if_false]
        rw [ihr]

/-- A permutation of a list that is sorted by a relation antisymmetric
on its members is unique. -/
theorem eq_of_perm_of_pairwise_antisymm {α : Type} (R : α → α → Prop) :
    ∀ l₁ l₂ : List α, List.Perm l₁ l₂ →
      (∀ x ∈ l₁, ∀ y ∈ l₁, R x y → R y x → x = y) →
      l₁.Pairwise R → l₂.Pairwise R → l₁ = l₂
  | [], _, hp, _, _, _ => (hp.symm.eq_nil).symm
  | a :: t₁, l₂, hp, hanti, h₁, h₂ => by
      rcases l₂ with _ | ⟨b, t₂⟩
      · exact absurd hp.eq_nil (by simp)
      · have hab : a = b := by
          by_contra hne
          have hb1 : b ∈ a :: t₁ := hp.mem_iff.mpr (List.mem_cons_self b t₂)
          have ha2 : a ∈ b :: t₂ := hp.mem_iff.mp (List.mem_cons_self a t₁)
          have hbt1 : b ∈ t₁ := by
            rcases List.mem_cons.mp hb1 with h | h
            · exact absurd h.symm hne
            · exact h
          have hat2 : a ∈ t₂ := by
            rcases List.mem_cons.mp ha2 with h | h
            · exact absurd h hne
            · exact h
          have hRab : R a b := (List.pairwise_cons.mp h₁).1 b hbt1
          have hRba : R b a := (List.pairwise_cons.mp h₂).1 a hat2
          exact hne (hanti a (List.mem_cons_self a t₁) b hb1 hRab hRba)
        subst hab
        rw [eq_of_perm_of_pairwise_antisymm R t₁ t₂ hp.cons_inv
          (fun x hx y hy => hanti x (List.mem_cons_of_mem a hx) y
            (List.mem_cons_of_mem a hy))
          (List.pairwise_cons.mp h₁).2 (List.pairwise_cons.mp h₂).2]

/-- Pairwise-distinct scores make mutual `leB` imply equality of the
list's members. -/
theorem noTie_antisymm {γ : Type} (l : List (γ × Score))
    (hties : l.Pairwise (fun x y =>
      ¬(Score.leB x.2 y.2 = true ∧ Score.leB y.2 x.2 = true))) :
    ∀ x ∈ l, ∀ y ∈ l, Score.leB x.2 y.2 = true →
      Score.leB y.2 x.2 = true → x = y := by
  induction l with
  | nil => intro x hx; exact absurd hx (List.not_mem_nil x)
  | cons a t ih =>
      intro x hx y hy h1 h2
      rcases List.pairwise_cons.mp hties with ⟨ha, ht⟩
      rcases List.mem_cons.mp hx with hxa | hxt
      · rcases List.mem_cons.mp hy with hya | hyt
        · rw [hxa, hya]
        · subst hxa
          exact absurd ⟨h1, h2⟩ (ha y hyt)
      · rcases List.mem_cons.mp hy with hya | hyt
        · subst hya
          exact absurd ⟨h2, h1⟩ (ha x hxt)
        · exact ih ht x hxt y hyt h1 h2

/-- With pairwise-distinct scores, reversing the stable ascending sort
(the argsort-then-reverse selection of the cache path) gives the same
list as the stable descending sort (`find_most_similar`'s): every
correct descending ordering of such a list is the same list. -/
theorem reverse_ascSort_eq_descSort {γ : Type} (l : List (γ × Score))
    (hden : ∀ p ∈ l, 0 < p.2.den)
    (hties : l.Pairwise (fun x y =>
      ¬(Score.leB x.2 y.2 = true ∧ Score.leB y.2 x.2 = true))) :
    (sortRanked scoreLe l).reverse = sortRanked scoreGe l := by
  have hpermAsc : List.Perm (sortRanked scoreLe l) l := sortRanked_perm _ l
  have hperm : List.Perm ((sortRanked scoreLe l).reverse)
      (sortRanked scoreGe l) :=
    ((List.reverse_perm _).trans hpermAsc).trans (sortRanked_perm _ l).symm
  have hpwDesc : (sortRanked scoreGe l).Pairwise
      (fun x y => Score.leB y.2 x.2 = true) :=
    sortRanked_pairwise (scoreGe (γ := γ)) l
      (fun a _ b _ =>
        show Score.leB b.2 a.2 = true ∨ Score.leB a.2 b.2 = true from
          Score.leB_total b.2 a.2)
      (fun a ha b hb c hc h1 h2 =>
        show Score.leB c.2 a.2 = true from
          Score.leB_trans (hden c hc) (hden b hb) (hden a ha)
            (show Score.leB c.2 b.2 = true from h2)
            (show Score.leB b.2 a.2 = true from h1))
  have hpwAscRev : ((sortRanked scoreLe l).reverse).Pairwise
      (fun x y => Score.leB y.2 x.2 = true) := by
    rw [List.pairwise_reverse]
    exact sortRanked_pairwise (scoreLe (γ := γ)) l
      (fun a _ b _ =>
        show Score.leB a.2 b.2 = true ∨ Score.leB b.2 a.2 = true from
          Score.leB_total a.2 b.2)
      (fun a ha b hb c hc h1 h2 =>
        show Score.leB a.2 c.2 = true from
          Score.leB_trans (hden a ha) (hden b hb) (hden c hc)
            (show Score.leB a.2 b.2 = true from h1)
            (show Score.leB b.2 c.2 = true from h2))
  have hanti := noTie_antisymm l hties
  refine eq_of_perm_of_pairwise_antisymm (fun x y => Score.leB y.2 x.2 = true)
    _ _ hperm ?_ hpwAscRev hpwDesc
  intro x hx y hy h1 h2
  have hx' : x ∈ l := hpermAsc.mem_iff.mp (List.mem_reverse.mp hx)
  have hy' : y ∈ l := hpermAsc.mem_iff.mp (List.mem_reverse.mp hy)
  exact hanti x hx' y hy' h2 h1

/-- Pairwise transfer through `filterMap`. -/
theorem pairwise_filterMap_of {α β : Type} (f : α → Option β)
    (R : β → β → Prop) (S : α → α → Prop) :
    ∀ l : List α,
      (∀ a ∈ l, ∀ b ∈ l, S a b →
        ∀ x, f a = some x → ∀ y, f b = some y → R x y) →
      l.Pairwise S → (l.filterMap f).Pairwise R
  | [], _, _ => by simp
  | a :: t, himp, hpw => by
      rcases List.pairwise_cons.mp hpw with ⟨ha, ht⟩
      have ihr := pairwise_filterMap_of f R S t
        (fun x hx y hy => himp x (List.mem_cons_of_mem a hx) y
          (List.mem_cons_of_mem a hy)) ht
      rcases hfa : f a with _ | x
      · rw [List.filterMap_cons_none hfa]
        exact ihr
      · rw [List.filterMap_cons_some hfa]
        refine List.pairwise_cons.mpr ⟨?_, ihr⟩
        intro y hy
        rcases List.mem_filterMap.mp hy with ⟨b, hb, hfb⟩
        exact himp a (List.mem_cons_self a t) b (List.mem_cons_of_mem a hb)
          (ha b hb) x hfa y hfb

/-- What the cache core's scoring function emits on a non-degenerate
row: the rowid paired with the row's cosine similarity. -/
theorem scoreFn_output {q : Vec} {minSim : ℚ} {rv : ℕ × Vec}
    {p : ℕ × Score} (hq : magSq q ≠ 0) (hmag : magSq rv.2 ≠ 0)
    (hlen : rv.2.length = q.length)
    (hf : (if magSq q = 0 ∨ magSq rv.2 = 0 then none
           else
             let sc : Score := ⟨dotList q rv.2, magSq q * magSq rv.2⟩
             if Score.leB ⟨minSim, 1⟩ sc then some (rv.1, sc) else none)
          = some p) :
    p = (rv.1, cosine_similarity q rv.2) := by
  have hg : ¬(magSq q = 0 ∨ magSq rv.2 = 0) := by
    rintro (h | h)
    · exact hq h
    · exact hmag h
  rw [if_neg hg] at hf
  rw [cosine_similarity_eq q rv.2 hlen.symm hq hmag]
  by_cases hthr : Score.leB ⟨minSim, 1⟩
      (⟨dotList q rv.2, magSq q * magSq rv.2⟩ : Score) = true
  · simp only [hthr, if_true] at hf
    exact (Option.some.inj hf).symm
  · simp only [hthr, Bool.false_eq_true, if_false] at hf
    exact absurd hf (by simp)

/-- C3 (amended): for a fixed set of embedded rows whose vectors are
nonzero, of the query's dimension, and of pairwise-distinct similarity
scores, and a query of nonzero magnitude, the cache path's
scoring-and-selection core (`cachedSearchCore`, the numpy part of
`_cached_similarity_search`) and `find_most_similar` run directly over
the same rows' vectors select exactly the same rowids with exactly the
same scores, in the same order.  Zero-magnitude vectors break the
as-stated equivalence — the cache path drops them as NaN while the
brute force scores them 0.0, see the counterexample — and equal scores
may come back in different orders (reversed argsort versus stable
descending sort) or, at the selection boundary, as different
identifiers (arbitrary argpartition ties). -/
theorem C3_cache_brute_equiv (data : List (ℕ × Vec)) (q : Vec)
    (limit : ℕ) (minSim : ℚ)
    (hq : magSq q ≠ 0)
    (hvec : ∀ rv ∈ data, magSq rv.2 ≠ 0 ∧ rv.2.length = q.length)
    (hties : data.Pairwise (fun rv rw =>
      ¬(Score.leB (cosine_similarity q rv.2) (cosine_similarity q rw.2)
          = true
        ∧ Score.leB (cosine_similarity q rw.2) (cosine_similarity q rv.2)
          = true))) :
    cachedSearchCore data q limit minSim
      = (find_most_similar q (data.map (fun rv => rv.2)) limit minSim).map
          (fun p => ((data.map (fun rv => rv.1)).getD p.1 0, p.2)) := by
  rcases data with _ | ⟨d, rest⟩
  · simp only [cachedSearchCore, find_most_similar, List.map_nil,
      List.filterMap_nil, or_true, if_true]
    rw [show sortRanked (scoreLe (γ := ℕ)) [] = [] from rfl,
      List.reverse_nil, List.take_nil]
  · have hq' : q ≠ [] := magSq_ne_zero_ne_nil hq
    have hguard : ¬(q = [] ∨ ((d :: rest).map (fun rv => rv.2)) = []) := by
      rintro (h | h)
      · exact hq' h
      · simp at h
    rw [find_most_similar, if_neg hguard, cachedSearchCore]
    have hdenF : ∀ p ∈ (d :: rest).filterMap (fun rv =>
        if magSq q = 0 ∨ magSq rv.2 = 0 then none
        else
          let sc : Score := ⟨dotList q rv.2, magSq q * magSq rv.2⟩
          if Score.leB ⟨minSim, 1⟩ sc then some (rv.1, sc) else none),
        0 < p.2.den := by
      intro p hp
      rcases List.mem_filterMap.mp hp with ⟨rv, hrv, hfrv⟩
      rw [scoreFn_output hq (hvec rv hrv).1 (hvec rv hrv).2 hfrv]
      exact cosine_similarity_den_pos q rv.2
    have hnoTieF : ((d :: rest).filterMap (fun rv =>
        if magSq q = 0 ∨ magSq rv.2 = 0 then none
        else
          let sc : Score := ⟨dotList q rv.2, magSq q * magSq rv.2⟩
          if Score.leB ⟨minSim, 1⟩ sc then some (rv.1, sc) else none)).Pairwise
        (fun x y =>
          ¬(Score.leB x.2 y.2 = true ∧ Score.leB y.2 x.2 = true)) := by
      refine pairwise_filterMap_of _ _ _ (d :: rest) ?_ hties
      intro a ha b hb hS x hx y hy
      rw [scoreFn_output hq (hvec a ha).1 (hvec a ha).2 hx,
        scoreFn_output hq (hvec b hb).1 (hvec b hb).2 hy]
      exact hS
    rw [reverse_ascSort_eq_descSort _ hdenF hnoTieF]
    rw [List.map_take]
    rw [← sortRanked_map (fun p : ℕ × Score =>
        (((d :: rest).map (fun rv => rv.1)).getD p.1 0, p.2))
      (scoreGe (γ := ℕ)) (scoreGe (γ := ℕ)) (fun x y => rfl)]
    have hbridge := filterPipeline_eq q minSim hq (d :: rest) 0
      (fun i => ((d :: rest).map (fun rv => rv.1)).getD i 0) hvec
      (fun i _ => by simp)
    rw [show ((d :: rest).map (fun rv => rv.2)).enum
        = ((d :: rest).map (fun rv => rv.2)).enumFrom 0 from rfl]
    rw [hbridge]

/-- C3 counterexample: over a single zero row vector with threshold 0,
`find_most_similar` selects candidate 0 (rowid 1) with score 0.0, while
the cache path drops the row (its NaN normalized similarity fails every
comparison): the two searches do not select the same identifiers. -/
theorem C3_counterexample :
    cachedSearchCore [(1, [0])] [1] 5 0 = []
    ∧ find_most_similar [1] [[0]] 5 0 = [(0, ⟨0, 1⟩)] := by
  constructor
  · norm_num [cachedSearchCore, magSq, List.filterMap_cons, sortRanked]
  · norm_num [find_most_similar, cosine_similarity, magSq, dotList,
      Score.leB, sqrtLe, sortRanked, insertRanked, scoreGe, List.enum,
      List.enumFrom]

/-- Witness for C3 on two nonzero unit rows with a binding limit. -/
theorem C3_witness :
    cachedSearchCore [(7, [1, 0]), (9, [0, 1])] [1, 0] 1 0
      = (find_most_similar [1, 0]
          ([(7, [1, 0]), (9, [0, 1])].map (fun rv => rv.2)) 1 0).map
          (fun p => (([((7:ℕ), [(1:ℚ), 0]), (9, [0, 1])].map
              (fun rv => rv.1)).getD p.1 0, p.2)) :=
  C3_cache_brute_equiv [(7, [1, 0]), (9, [0, 1])] [1, 0] 1 0
    (by norm_num [magSq])
    (by
      intro rv hrv
      rcases List.mem_cons.mp hrv with rfl | hrv
      · exact ⟨by norm_num [magSq], rfl⟩
      · rcases List.mem_cons.mp hrv with rfl | hrv
        · exact ⟨by norm_num [magSq], rfl⟩
        · exact absurd hrv (List.not_mem_nil rv))
    (by
      have h7 : cosine_similarity [1, 0] [1, 0] = (⟨1, 1⟩ : Score) := by
        rw [cosine_similarity, if_neg (by decide), if_neg (by norm_num [magSq])]
        norm_num [dotList, magSq]
      have h9 : cosine_similarity [1, 0] [0, 1] = (⟨0, 1⟩ : Score) := by
        rw [cosine_similarity, if_neg (by decide), if_neg (by norm_num [magSq])]
        norm_num [dotList, magSq]
      norm_num [List.pairwise_cons, h7, h9, Score.leB, sqrtLe])

end Agenesis
